import Mathlib

/-!
Verification development for the company-name matching engine of the NER
repository: the build pipeline `create_tries.py` (normalization, chunking,
automaton construction, chunk persistence) and the query pipeline
`search_companies.py` (chunk loading, text normalization, multi-pattern scan,
boundary and stop-word filtering).

Strings are modelled as `List Char`.  Python's character classes
(`str.isalnum`, `str.strip`, `string.punctuation`, the regex classes
`\w` and `\s`) are modelled on the ASCII fragment by their code-point
ranges; non-ASCII letters are outside the scope of the embedding.

The third-party `ahocorasick.Automaton` is modelled by its documented
contract: `add_word` inserts a pattern or overwrites the payload of an
existing pattern, and `iter(text)` reports every occurrence of any stored
pattern as a substring of `text`, by inclusive end index and payload.
-/

set_option maxRecDepth 1000000

namespace NER

/-- Python values that can reach `clean_name`: a string, or anything else
(`None` and non-string values are treated alike by both implementations). -/
inductive PyVal where
  | str : List Char → PyVal
  | nonStr : PyVal
deriving DecidableEq

/-- The characters of a `PyVal` (empty for a non-string). -/
def pyChars : PyVal → List Char
  | PyVal.str s => s
  | PyVal.nonStr => []

/-- ASCII fragment of Python's whitespace class (`str.strip` / regex `\s`):
tab, newline, vertical tab, form feed, carriage return, the separator
control characters 28-31, and space. -/
def pyIsSpace (c : Char) : Bool :=
  decide ((9 ≤ c.toNat ∧ c.toNat ≤ 13) ∨ (28 ≤ c.toNat ∧ c.toNat ≤ 32))

/-- The 32 characters of Python's `string.punctuation`
(ASCII 33-47, 58-64, 91-96, 123-126). -/
def isPunctuation (c : Char) : Bool :=
  decide ((33 ≤ c.toNat ∧ c.toNat ≤ 47) ∨ (58 ≤ c.toNat ∧ c.toNat ≤ 64) ∨
    (91 ≤ c.toNat ∧ c.toNat ≤ 96) ∨ (123 ≤ c.toNat ∧ c.toNat ≤ 126))

/-- ASCII fragment of Python's `str.isalnum`: digits and letters. -/
def pyIsAlnum (c : Char) : Bool :=
  decide ((48 ≤ c.toNat ∧ c.toNat ≤ 57) ∨ (65 ≤ c.toNat ∧ c.toNat ≤ 90) ∨
    (97 ≤ c.toNat ∧ c.toNat ≤ 122))

/-- ASCII fragment of the regex class `\w`: alphanumeric or underscore
(code 95). -/
def pyIsWord (c : Char) : Bool :=
  pyIsAlnum c || decide (c.toNat = 95)

/-- Python `str.strip()`: remove whitespace from both ends. -/
def pyStrip (s : List Char) : List Char :=
  ((s.dropWhile pyIsSpace).reverse.dropWhile pyIsSpace).reverse

namespace CreateTries

/-- Build-time normalization, `create_tries.clean_name`: non-strings map to
`""`; strings are stripped, lowercased (`Char.toLower` is exactly Python's
`str.lower` on ASCII), and the `string.punctuation` characters are removed
(`str.translate`). -/
def clean_name : PyVal → List Char
  | PyVal.nonStr => []
  | PyVal.str s => ((pyStrip s).map Char.toLower).filter (fun c => !isPunctuation c)

end CreateTries

namespace SearchCompanies

/-- Query-time normalization, `search_companies.clean_name`: non-strings map
to `""`; strings are stripped, lowercased, and `re.sub(r'[^\w\s]', '', name)`
removes every character that is neither a word character nor whitespace. -/
def clean_name : PyVal → List Char
  | PyVal.nonStr => []
  | PyVal.str s => ((pyStrip s).map Char.toLower).filter (fun c => pyIsWord c || pyIsSpace c)

/-- The `STOP_WORDS` set literal of `search_companies.py`, transcribed in
source order (the Python set collapses duplicate literals; only membership
is ever used). -/
def STOP_WORDS : List (List Char) :=
  (["a", "an", "the", "and", "or", "but", "not", "for", "on", "in", "at", "with",
    "as", "by", "from", "up", "down", "out", "off", "over", "under", "again",
    "further", "then", "once", "here", "there", "when", "where", "why", "how",
    "all", "any", "both", "each", "few", "more", "most", "other", "some", "such",
    "no", "nor", "only", "own", "same", "so", "than", "too", "very", "s", "t",
    "can", "will", "just", "don", "should", "now", "this", "that", "these", "those",
    "i", "me", "my", "myself", "we", "our", "ours", "ourselves", "you", "your",
    "yours", "yourself", "yourselves", "he", "him", "his", "himself", "she", "her",
    "hers", "herself", "it", "its", "itself", "they", "them", "their", "theirs",
    "themselves", "what", "which", "who", "whom", "whose", "this", "that", "these",
    "those", "am", "is", "are", "was", "were", "be", "been", "being", "have", "has",
    "had", "having", "do", "does", "did", "doing", "would", "should", "could",
    "ought", "i'm", "you're", "he's", "she's", "it's", "we're", "they're", "i've",
    "you've", "we've", "they've", "i'd", "you'd", "he'd", "she'd", "we'd", "they'd",
    "i'll", "you'll", "he'll", "she'll", "we'll", "they'll", "isn't", "aren't",
    "wasn't", "weren't", "hasn't", "haven't", "hadn't", "doesn't", "don't", "didn't",
    "won't", "wouldn't", "shan't", "shouldn't", "can't", "cannot", "couldn't",
    "mustn't", "let's", "that's", "who's", "what's", "here's", "there's", "when's",
    "where's", "why's", "how's", "a", "b", "c", "d", "e", "f", "g", "h", "i", "j",
    "k", "l", "m", "n", "o", "p", "q", "r", "s", "t", "u", "v", "w", "x", "y",
    "z"]).map String.toList

end SearchCompanies

/-- An Aho-Corasick automaton, modelled as its pattern-to-payload
association (key, (original_name, cleaned_name)).  Keys are unique: see
`addWord`. -/
abbrev Automaton := List (List Char × (List Char × List Char))

/-- `ahocorasick.Automaton.add_word(w, v)`: overwrite the payload if the
pattern is already present, otherwise append the new pattern. -/
def addWord (A : Automaton) (w : List Char) (v : List Char × List Char) : Automaton :=
  if A.any (fun p => p.1 == w) then A.map (fun p => if p.1 == w then (w, v) else p)
  else A ++ [(w, v)]

/-- Pattern `pat` occurs in `text` as the substring whose inclusive end
index is `e`. -/
def occursEndAt (text pat : List Char) (e : Nat) : Bool :=
  decide (0 < pat.length) && decide (pat.length ≤ e + 1) && decide (e < text.length) &&
    ((text.drop (e + 1 - pat.length)).take pat.length == pat)

/-- `Automaton.iter(text)`: every occurrence of any stored pattern as a
substring of `text`, reported as (inclusive end index, payload). -/
def trieIter (A : Automaton) (text : List Char) : List (Nat × (List Char × List Char)) :=
  (List.range text.length).flatMap
    (fun e => (A.filter (fun p => occursEndAt text p.1 e)).map (fun p => (e, p.2)))

/-- One persisted chunk: the automaton plus its (min_name, max_name) range
metadata. -/
abbrev TrieData := Automaton × (List Char × List Char)

namespace SearchCompanies

/-- The word-boundary test of `find_company_names`: the character before the
match (space if the match starts the text) and the character after the match
(space if the match ends the text) must both be non-alphanumeric. -/
def boundaryOk (cleanedText : List Char) (endIndex : Nat) (cleanedKeyword : List Char) : Bool :=
  let startIndex := endIndex + 1 - cleanedKeyword.length
  let preMatchChar := if startIndex > 0 then cleanedText.getD (startIndex - 1) ' ' else ' '
  let postMatchChar := if endIndex < cleanedText.length - 1 then cleanedText.getD (endIndex + 1) ' ' else ' '
  !pyIsAlnum preMatchChar && !pyIsAlnum postMatchChar

/-- The stop-word test of `find_company_names`: the matched cleaned keyword
contains no space and is a member of `STOP_WORDS`. -/
def isSingleTokenStopWord (cleanedKeyword : List Char) : Bool :=
  decide (' ' ∉ cleanedKeyword) && decide (cleanedKeyword ∈ STOP_WORDS)

/-- Whether one occurrence reported by `iter` is added to the result set:
both boundaries must be word boundaries, and single-token stop words are
skipped. -/
def acceptOcc (cleanedText : List Char) (endIndex : Nat) (cleanedKeyword : List Char) : Bool :=
  boundaryOk cleanedText endIndex cleanedKeyword && !isSingleTokenStopWord cleanedKeyword

/-- `CompanyNameSearcher.find_company_names`: clean the query, short-circuit
on an empty cleaned text, scan every loaded trie, filter each occurrence by
the boundary and stop-word tests, and return the set of original names
(`list(found_names)`; `dedup` gives the set semantics). -/
def find_company_names (tries_with_ranges : List TrieData) (text : PyVal) : List (List Char) :=
  let cleaned_text := clean_name text
  if cleaned_text.isEmpty then []
  else
    (tries_with_ranges.flatMap (fun td =>
      (trieIter td.1 cleaned_text).filterMap (fun occ =>
        if acceptOcc cleaned_text occ.1 occ.2.2 then some occ.2.1 else none))).dedup

/-- The `".pkl"` suffix used to select chunk files. -/
def pklSuffix : List Char := ".pkl".toList

/-- Python `s.endswith(suffix)`: the last `suffix.length` characters of `s`
equal `suffix`. -/
def pyEndsWith (s suffix : List Char) : Bool :=
  s.drop (s.length - suffix.length) == suffix

/-- `CompanyNameSearcher.load_tries`: a missing directory (`none`) yields an
empty registry; otherwise the file names are visited in sorted order
(`sorted(os.listdir(...))`, lexicographic string order) and every file
ending in `".pkl"` is deserialized and appended.  A directory is modelled
as its name-to-content association. -/
def load_tries (dir : Option (List (List Char × TrieData))) : List TrieData :=
  match dir with
  | none => []
  | some files =>
    ((List.insertionSort (fun f g : List Char × TrieData => f.1 ≤ g.1) files).filter
      (fun f => pyEndsWith f.1 pklSuffix)).map Prod.snd

end SearchCompanies

namespace CreateTries

/-- The raw string behind a `PyVal` row (rows that are not strings have an
empty canonical key, are filtered out, and never reach a chunk). -/
def pyStrOf : PyVal → List Char
  | PyVal.str s => s
  | PyVal.nonStr => []

/-- The builder's preprocessing of the `name` column: pair every row with its
cleaned form, drop rows whose cleaned name is empty, and sort ascending by
cleaned name.  The source sorts with polars' `DataFrame.sort`, whose order
among equal keys is not specified by its API (`maintain_order` defaults to
false); the embedding fixes the stable order (`insertionSort` preserves the
relative input order of equal keys). -/
def processed_names (names : List PyVal) : List (List Char × List Char) :=
  List.insertionSort (fun p q : List Char × List Char => p.1 ≤ q.1)
    ((names.map (fun x => (clean_name x, pyStrOf x))).filter (fun p => !p.1.isEmpty))

/-- Number of chunks produced by `range(0, n, chunk_size)` for a positive
`chunk_size`: the ceiling of `n / chunk_size`. -/
def chunkCount (n chunk_size : Nat) : Nat := (n + chunk_size - 1) / chunk_size

/-- The slice `l[i*chunk_size : (i+1)*chunk_size]` handed to the `i`-th chunk
(0-based). -/
def nthChunk {α : Type} (l : List α) (chunk_size i : Nat) : List α :=
  (l.drop (i * chunk_size)).take chunk_size

/-- The list of all chunk slices, in build order. -/
def chunks {α : Type} (l : List α) (chunk_size : Nat) : List (List α) :=
  (List.range (chunkCount l.length chunk_size)).map (nthChunk l chunk_size)

/-- Compile one chunk: `A.add_word(cleaned_name, (original_name, cleaned_name))`
for every entry of the slice, in slice order. -/
def buildTrie (chunk : List (List Char × List Char)) : Automaton :=
  chunk.foldl (fun A p => addWord A p.1 (p.2, p.1)) []

/-- The (min_name, max_name) range stored beside a chunk: first and last
cleaned name of the slice, or `""` for an empty slice. -/
def chunkRange (chunk : List (List Char × List Char)) : List Char × List Char :=
  ((chunk.map Prod.fst).head?.getD [], (chunk.map Prod.fst).getLast?.getD [])

/-- The file name of the `k`-th chunk (1-based): `trie_chunk_{k}.pkl`. -/
def chunkFileName (k : Nat) : List Char :=
  "trie_chunk_".toList ++ (Nat.repr k).toList ++ ".pkl".toList

/-- `create_and_pickle_tries`: preprocess the rows, slice them into chunks of
at most `chunk_size` entries, compile each slice into an automaton with its
range metadata, and persist chunk `i+1` under `trie_chunk_{i+1}.pkl`.  The
result is the produced directory: the file-name-to-content association in
build order. -/
def create_and_pickle_tries (names : List PyVal) (chunk_size : Nat) :
    List (List Char × TrieData) :=
  (List.range (chunkCount (processed_names names).length chunk_size)).map
    (fun i =>
      (chunkFileName (i + 1),
        (buildTrie (nthChunk (processed_names names) chunk_size i),
         chunkRange (nthChunk (processed_names names) chunk_size i))))

/-- Specification-side description of last-write-wins: the last entry of `l`
whose key is `k` (the payload that survives repeated `add_word` calls). -/
def lastEntryWithKey (l : List (List Char × List Char)) (k : List Char) :
    Option (List Char × List Char) :=
  (l.filter (fun p => p.1 == k)).getLast?

/-- The union of all chunk patterns of a build output, as
(CanonicalKey, RawName) pairs. -/
def unionPatterns (out : List (List Char × TrieData)) : List (List Char × List Char) :=
  out.flatMap (fun f => f.2.1.map (fun p => (p.1, p.2.1)))

end CreateTries

/-- Whether an occurrence with inclusive end index `e` of a keyword `kw` in
`cleanedText` sits inside a longer alphanumeric token: an alphanumeric
character immediately before its start or immediately after its end. -/
def hasAlnumNeighbor (cleanedText : List Char) (e : Nat) (kw : List Char) : Prop :=
  (0 < e + 1 - kw.length ∧ pyIsAlnum (cleanedText.getD (e + 1 - kw.length - 1) ' ') = true) ∨
  (e < cleanedText.length - 1 ∧ pyIsAlnum (cleanedText.getD (e + 1) ' ') = true)

instance (cleanedText : List Char) (e : Nat) (kw : List Char) :
    Decidable (hasAlnumNeighbor cleanedText e kw) := by
  unfold hasAlnumNeighbor; infer_instance

/-- Every character is alphanumeric, ASCII whitespace, or ASCII punctuation
other than the underscore: the fragment on which the two normalization
functions coincide. -/
def asciiRegular (c : Char) : Bool :=
  pyIsAlnum c || pyIsSpace c || (isPunctuation c && !decide (c.toNat = 95))

end NER

namespace NER

/-! ### Character-class lemmas

Python's `str.lower` on the ASCII fragment is `Char.toLower`; the lemmas
below unfold it to code-point arithmetic so that every character-class fact
reduces to linear arithmetic over `Char.toNat`. -/

theorem char_toNat_ofNat {n : Nat} (h : n < 55296) : (Char.ofNat n).toNat = n := by
  unfold Char.ofNat
  rw [dif_pos (Or.inl h)]
  rfl

theorem toLower_toNat (c : Char) :
    (Char.toLower c).toNat = if 65 ≤ c.toNat ∧ c.toNat ≤ 90 then c.toNat + 32 else c.toNat := by
  unfold Char.toLower
  by_cases h : 65 ≤ c.toNat ∧ c.toNat ≤ 90
  · rw [if_pos ⟨h.1, h.2⟩, if_pos h, char_toNat_ofNat (by omega)]
  · rw [if_neg h, if_neg h]

theorem toLower_eq_self_of_not_upper {c : Char} (h : ¬(65 ≤ c.toNat ∧ c.toNat ≤ 90)) :
    Char.toLower c = c := by
  unfold Char.toLower
  rw [if_neg h]

theorem toLower_toLower (c : Char) : Char.toLower (Char.toLower c) = Char.toLower c := by
  by_cases h : 65 ≤ c.toNat ∧ c.toNat ≤ 90
  · refine toLower_eq_self_of_not_upper ?_
    rw [toLower_toNat, if_pos h]
    omega
  · rw [toLower_eq_self_of_not_upper h, toLower_eq_self_of_not_upper h]

theorem pyIsAlnum_toLower (c : Char) : pyIsAlnum (Char.toLower c) = pyIsAlnum c := by
  rw [Bool.eq_iff_iff]
  simp only [pyIsAlnum, decide_eq_true_eq, toLower_toNat]
  split <;> omega

theorem toLower_eq_self_of_not_alnum {c : Char} (h : pyIsAlnum c = false) :
    Char.toLower c = c := by
  refine toLower_eq_self_of_not_upper (fun hu => ?_)
  simp only [pyIsAlnum, decide_eq_false_iff_not] at h
  omega

theorem pyIsSpace_not_alnum {c : Char} (h : pyIsSpace c = true) : pyIsAlnum c = false := by
  simp only [pyIsSpace, decide_eq_true_eq] at h
  simp only [pyIsAlnum, decide_eq_false_iff_not]
  omega

/-- On regular characters the two per-character filters of the two
`clean_name` implementations agree (after lowercasing). -/
theorem clean_filters_agree {c : Char} (h : asciiRegular c = true) :
    (!isPunctuation (Char.toLower c)) = (pyIsWord (Char.toLower c) || pyIsSpace (Char.toLower c)) := by
  simp only [asciiRegular, pyIsAlnum, pyIsSpace, isPunctuation, Bool.or_eq_true,
    Bool.and_eq_true, Bool.not_eq_true', decide_eq_true_eq, decide_eq_false_iff_not] at h
  rw [Bool.eq_iff_iff]
  simp only [Bool.not_eq_true', pyIsWord, pyIsAlnum, pyIsSpace, isPunctuation,
    Bool.or_eq_true, decide_eq_true_eq, decide_eq_false_iff_not, toLower_toNat]
  split <;> omega

/-! ### Strip and clean-name lemmas -/

theorem mem_pyStrip {c : Char} {s : List Char} (h : c ∈ pyStrip s) : c ∈ s := by
  unfold pyStrip at h
  rw [List.mem_reverse] at h
  have h1 := (List.dropWhile_sublist (l := (s.dropWhile pyIsSpace).reverse) pyIsSpace).mem h
  rw [List.mem_reverse] at h1
  exact (List.dropWhile_sublist pyIsSpace).mem h1

/-- Characters surviving build-time cleaning are lowercase fixed points and
not punctuation. -/
theorem mem_clean_name_B {c : Char} {x : PyVal} (h : c ∈ CreateTries.clean_name x) :
    Char.toLower c = c ∧ isPunctuation c = false := by
  cases x with
  | nonStr => simp [CreateTries.clean_name] at h
  | str s =>
    simp only [CreateTries.clean_name, List.mem_filter, List.mem_map, Bool.not_eq_true'] at h
    obtain ⟨⟨c0, _, hc0⟩, hp⟩ := h
    exact ⟨hc0 ▸ toLower_toLower c0, hp⟩

/-- Characters surviving query-time cleaning are lowercase fixed points and
word or whitespace characters. -/
theorem mem_clean_name_Q {c : Char} {x : PyVal} (h : c ∈ SearchCompanies.clean_name x) :
    Char.toLower c = c ∧ (pyIsWord c || pyIsSpace c) = true := by
  cases x with
  | nonStr => simp [SearchCompanies.clean_name] at h
  | str s =>
    simp only [SearchCompanies.clean_name, List.mem_filter, List.mem_map] at h
    obtain ⟨⟨c0, _, hc0⟩, hp⟩ := h
    exact ⟨hc0 ▸ toLower_toLower c0, hp⟩

/-- Re-cleaning a string whose characters are already clean only strips the
surrounding whitespace. -/
theorem clean_shape_restrip (p : Char → Bool) (y : List Char)
    (hlow : ∀ c ∈ y, Char.toLower c = c) (hp : ∀ c ∈ y, p c = true) :
    ((pyStrip y).map Char.toLower).filter p = pyStrip y := by
  have hmap : (pyStrip y).map Char.toLower = pyStrip y := by
    rw [List.map_congr_left (g := id) (fun c hc => hlow c (mem_pyStrip hc)), List.map_id]
  rw [hmap]
  exact List.filter_eq_self.mpr (fun c hc => hp c (mem_pyStrip hc))

/-! ### Claim C1 -/

/-- C1, counterexample: on the underscore the build-time normalization
(`string.punctuation` removal) returns `""` while the query-time
normalization (`\w` is kept) returns `"_"`, so the two functions are not
extensionally equal. -/
theorem claim_C1_counterexample :
    CreateTries.clean_name (PyVal.str "_".toList) ≠
      SearchCompanies.clean_name (PyVal.str "_".toList) := by decide

/-- C1 (amended): the build-time and query-time `clean_name` agree on every
input whose characters are alphanumeric, ASCII whitespace, or ASCII
punctuation other than the underscore (in particular on null and non-string
inputs); they diverge on the underscore (removed at build time, kept at
query time) and on characters outside all three classes, such as control
characters (kept at build time, removed at query time). -/
theorem claim_C1 (x : PyVal) (h : ∀ c ∈ pyChars x, asciiRegular c = true) :
    CreateTries.clean_name x = SearchCompanies.clean_name x := by
  cases x with
  | nonStr => rfl
  | str s =>
    simp only [CreateTries.clean_name, SearchCompanies.clean_name]
    refine List.filter_congr (fun c hc => ?_)
    obtain ⟨c0, hc0s, hc0⟩ := List.mem_map.mp hc
    exact hc0 ▸ clean_filters_agree (h c0 (mem_pyStrip hc0s))

/-- C1 witness: the two normalizations agree on a regular mixed-case input. -/
theorem claim_C1_witness :
    CreateTries.clean_name (PyVal.str "  Hello, World! ".toList) =
      SearchCompanies.clean_name (PyVal.str "  Hello, World! ".toList) :=
  claim_C1 (PyVal.str "  Hello, World! ".toList) (by decide)

/-! ### Claim C5 -/

/-- C5, counterexample: stripping happens before punctuation removal, so
cleaning `"a ."` leaves the trailing space (`"a "`), and re-cleaning strips
it; neither implementation is idempotent. -/
theorem claim_C5_counterexample :
    CreateTries.clean_name (PyVal.str (CreateTries.clean_name (PyVal.str "a .".toList))) ≠
        CreateTries.clean_name (PyVal.str "a .".toList) ∧
      SearchCompanies.clean_name (PyVal.str (SearchCompanies.clean_name (PyVal.str "a .".toList))) ≠
        SearchCompanies.clean_name (PyVal.str "a .".toList) := by decide

/-- C5 (amended): re-normalizing a normalized value only trims the
surrounding whitespace that punctuation removal can expose, for both
implementations; normalization is idempotent exactly on the inputs whose
normal form carries no leading or trailing whitespace. -/
theorem claim_C5 (x : PyVal) :
    CreateTries.clean_name (PyVal.str (CreateTries.clean_name x)) =
        pyStrip (CreateTries.clean_name x) ∧
      SearchCompanies.clean_name (PyVal.str (SearchCompanies.clean_name x)) =
        pyStrip (SearchCompanies.clean_name x) := by
  constructor
  · exact clean_shape_restrip _ _ (fun c hc => (mem_clean_name_B hc).1)
      (fun c hc => by rw [(mem_clean_name_B hc).2]; rfl)
  · exact clean_shape_restrip _ _ (fun c hc => (mem_clean_name_Q hc).1)
      (fun c hc => (mem_clean_name_Q hc).2)

end NER

namespace NER

/-! ### Matcher lemmas -/

theorem trieIter_nil (A : Automaton) : trieIter A [] = [] := rfl

/-- Membership in the matcher's result set is exactly the existence of an
occurrence in some loaded trie that passes the boundary and stop-word
tests. -/
theorem mem_find_company_names {tries : List TrieData} {text : PyVal} {o : List Char} :
    o ∈ SearchCompanies.find_company_names tries text ↔
      ∃ td ∈ tries, ∃ occ ∈ trieIter td.1 (SearchCompanies.clean_name text),
        SearchCompanies.acceptOcc (SearchCompanies.clean_name text) occ.1 occ.2.2 = true ∧
          occ.2.1 = o := by
  unfold SearchCompanies.find_company_names
  by_cases he : (SearchCompanies.clean_name text).isEmpty
  · rw [if_pos he]
    simp only [List.not_mem_nil, false_iff, not_exists]
    rintro td ⟨-, occ, hocc, -⟩
    rw [List.isEmpty_iff.mp he, trieIter_nil] at hocc
    exact (List.not_mem_nil occ) hocc
  · rw [if_neg he, List.mem_dedup, List.mem_flatMap]
    constructor
    · rintro ⟨td, htd, hocc⟩
      obtain ⟨occ, hoccmem, hif⟩ := List.mem_filterMap.mp hocc
      by_cases ha : SearchCompanies.acceptOcc (SearchCompanies.clean_name text) occ.1 occ.2.2 = true
      · rw [if_pos ha, Option.some_inj] at hif
        exact ⟨td, htd, occ, hoccmem, ha, hif⟩
      · rw [if_neg ha] at hif
        exact absurd hif (Option.some_ne_none o).symm
    · rintro ⟨td, htd, occ, hoccmem, ha, ho⟩
      exact ⟨td, htd, List.mem_filterMap.mpr ⟨occ, hoccmem, by rw [if_pos ha, ho]⟩⟩

/-- An occurrence flanked by an alphanumeric character fails the boundary
test and is not accepted. -/
theorem acceptOcc_false_of_hasAlnumNeighbor {t : List Char} {e : Nat} {kw : List Char}
    (h : hasAlnumNeighbor t e kw) : SearchCompanies.acceptOcc t e kw = false := by
  simp only [SearchCompanies.acceptOcc, SearchCompanies.boundaryOk]
  rcases h with ⟨hpos, halnum⟩ | ⟨hlt, halnum⟩
  · rw [if_pos hpos, halnum]
    simp
  · rw [if_pos hlt, halnum]
    simp

/-! ### Claim C3 -/

/-- C3: an occurrence of a dictionary key that sits strictly inside a longer
alphanumeric token of the cleaned query (alphanumeric character immediately
before its start or immediately after its end) never contributes to the
result set: if every occurrence carrying a raw name has an alphanumeric
neighbor, that name is absent from the result. -/
theorem claim_C3 (tries : List TrieData) (text : PyVal) (o : List Char)
    (h : ∀ td ∈ tries, ∀ occ ∈ trieIter td.1 (SearchCompanies.clean_name text),
      occ.2.1 = o → hasAlnumNeighbor (SearchCompanies.clean_name text) occ.1 occ.2.2) :
    o ∉ SearchCompanies.find_company_names tries text := by
  intro hmem
  obtain ⟨td, htd, occ, hocc, ha, ho⟩ := mem_find_company_names.mp hmem
  rw [acceptOcc_false_of_hasAlnumNeighbor (h td htd occ hocc ho)] at ha
  exact Bool.false_ne_true ha

/-- C3 witness: the dictionary key "goog" occurs in the query "googly" only
inside the longer token, and the searcher returns nothing for it. -/
theorem claim_C3_witness :
    "Goog".toList ∉ SearchCompanies.find_company_names
      [(CreateTries.buildTrie [("goog".toList, "Goog".toList)], ("goog".toList, "goog".toList))]
      (PyVal.str "googly".toList) :=
  claim_C3 _ _ _ (by decide)

/-! ### Claim C4 -/

/-- No entry of the stop-word set contains a whitespace character. -/
theorem stop_words_have_no_space :
    ∀ w ∈ SearchCompanies.STOP_WORDS, ∀ c ∈ w, pyIsSpace c = false := by decide

/-- C4: an occurrence whose matched key has no whitespace and lies in the
stop-word set is never accepted, regardless of its boundaries; an occurrence
whose matched key contains whitespace is never discarded by the stop-word
filter — its acceptance is exactly the boundary test. -/
theorem claim_C4 (cleanedText kw : List Char) (e : Nat) :
    ((∀ c ∈ kw, pyIsSpace c = false) → kw ∈ SearchCompanies.STOP_WORDS →
        SearchCompanies.acceptOcc cleanedText e kw = false) ∧
      ((∃ c ∈ kw, pyIsSpace c = true) →
        SearchCompanies.acceptOcc cleanedText e kw = SearchCompanies.boundaryOk cleanedText e kw) := by
  constructor
  · intro hnospace hstop
    have hnosp : ' ' ∉ kw := fun hsp => by
      have := hnospace ' ' hsp
      simp [pyIsSpace] at this
    unfold SearchCompanies.acceptOcc SearchCompanies.isSingleTokenStopWord
    rw [decide_eq_true hnosp, decide_eq_true hstop]
    simp
  · rintro ⟨c, hc, hcspace⟩
    have hnotstop : SearchCompanies.isSingleTokenStopWord kw = false := by
      unfold SearchCompanies.isSingleTokenStopWord
      by_cases hsp : ' ' ∈ kw
      · rw [decide_eq_false (by simpa using hsp)]
        rfl
      · rw [decide_eq_false (show ¬kw ∈ SearchCompanies.STOP_WORDS from fun hstop => by
          rw [stop_words_have_no_space kw hstop c hc] at hcspace
          exact Bool.false_ne_true hcspace)]
        simp
    unfold SearchCompanies.acceptOcc
    rw [hnotstop]
    simp

/-- C4 witness: the stop word "the" is rejected even at perfect boundaries,
while the multi-word key "it services inc" (containing the stop-word token
"it") is governed by the boundary test alone. -/
theorem claim_C4_witness :
    SearchCompanies.acceptOcc "the".toList 2 "the".toList = false ∧
      SearchCompanies.acceptOcc "it services inc".toList 14 "it services inc".toList =
        SearchCompanies.boundaryOk "it services inc".toList 14 "it services inc".toList :=
  ⟨(claim_C4 _ _ _).1 (by decide) (by decide),
   (claim_C4 _ _ _).2 ⟨' ', by decide, by decide⟩⟩

/-! ### Claim C9 -/

/-- C9: a null or non-string query yields an empty result without raising;
a missing chunk directory yields an empty registry without raising, and
every subsequent match against that registry returns an empty result. -/
theorem claim_C9 (tries : List TrieData) (text : PyVal) :
    SearchCompanies.find_company_names tries PyVal.nonStr = [] ∧
      SearchCompanies.load_tries none = [] ∧
      SearchCompanies.find_company_names (SearchCompanies.load_tries none) text = [] := by
  refine ⟨rfl, rfl, ?_⟩
  simp only [SearchCompanies.find_company_names]
  split
  · rfl
  · rfl

/-! ### Claim C10 -/

/-- Registry membership after a load pass: exactly the contents of the files
whose names end in ".pkl". -/
theorem mem_load_tries {files : List (List Char × TrieData)} {td : TrieData} :
    td ∈ SearchCompanies.load_tries (some files) ↔
      ∃ name, (name, td) ∈ files ∧
        SearchCompanies.pyEndsWith name SearchCompanies.pklSuffix = true := by
  simp only [SearchCompanies.load_tries, List.mem_map, List.mem_filter]
  constructor
  · rintro ⟨f, ⟨hfs, hend⟩, rfl⟩
    refine ⟨f.1, ?_, hend⟩
    have := (List.perm_insertionSort (fun f g : List Char × TrieData => f.1 ≤ g.1) files).mem_iff.mp hfs
    simpa using this
  · rintro ⟨name, hmem, hend⟩
    exact ⟨(name, td),
      ⟨(List.perm_insertionSort (fun f g : List Char × TrieData => f.1 ≤ g.1) files).mem_iff.mpr hmem,
        hend⟩, rfl⟩

/-- C10: a load pass deserializes exactly the files whose names end in
".pkl" — the registry holds a chunk iff some ".pkl" file holds it — and a
directory with no ".pkl" file yields an empty registry without error. -/
theorem claim_C10 (files : List (List Char × TrieData)) (td : TrieData) :
    (td ∈ SearchCompanies.load_tries (some files) ↔
        ∃ name, (name, td) ∈ files ∧
          SearchCompanies.pyEndsWith name SearchCompanies.pklSuffix = true) ∧
      ((∀ f ∈ files, SearchCompanies.pyEndsWith f.1 SearchCompanies.pklSuffix = false) →
        SearchCompanies.load_tries (some files) = []) := by
  refine ⟨mem_load_tries, fun hnone => ?_⟩
  simp only [SearchCompanies.load_tries]
  rw [List.filter_eq_nil_iff.mpr (fun f hf => by
    rw [hnone f ((List.perm_insertionSort (fun f g : List Char × TrieData => f.1 ≤ g.1) files).mem_iff.mp hf)]
    exact Bool.false_ne_true)]
  rfl

/-- C10 witness: a directory holding only a non-".pkl" file loads to an
empty registry. -/
theorem claim_C10_witness :
    SearchCompanies.load_tries (some [("readme.txt".toList, ([], ([], [])))]) = [] :=
  (claim_C10 [("readme.txt".toList, ([], ([], [])))] ([], ([], []))).2 (by decide)

end NER

namespace NER

/-! ### Automaton-construction lemmas -/

/-- Membership after `add_word`: the new pattern carries the new payload;
every other key is untouched. -/
theorem mem_addWord {A : Automaton} {w : List Char} {v : List Char × List Char}
    {k : List Char} {u : List Char × List Char} :
    (k, u) ∈ addWord A w v ↔ (k = w ∧ u = v) ∨ (k ≠ w ∧ (k, u) ∈ A) := by
  unfold addWord
  by_cases hany : A.any (fun p => p.1 == w) = true
  · rw [if_pos hany]
    constructor
    · intro hmem
      obtain ⟨q, hq, hrep⟩ := List.mem_map.mp hmem
      by_cases hqw : q.1 == w
      · rw [if_pos hqw] at hrep
        have h2 : w = k ∧ v = u := Prod.mk.injEq _ _ _ _ ▸ hrep
        exact Or.inl ⟨h2.1.symm, h2.2.symm⟩
      · rw [if_neg hqw] at hrep
        refine Or.inr ⟨?_, hrep ▸ hq⟩
        intro hkw
        exact hqw (by rw [hrep]; exact beq_iff_eq.mpr hkw)
    · rintro (⟨rfl, rfl⟩ | ⟨hkw, hmem⟩)
      · obtain ⟨q, hq, hqw⟩ := List.any_eq_true.mp hany
        exact List.mem_map.mpr ⟨q, hq, by rw [if_pos hqw]⟩
      · exact List.mem_map.mpr ⟨(k, u), hmem, by
          rw [if_neg (fun h => hkw (beq_iff_eq.mp h))]⟩
  · rw [if_neg hany]
    rw [List.mem_append, List.mem_singleton]
    constructor
    · rintro (hmem | heq)
      · refine Or.inr ⟨fun hkw => hany ?_, hmem⟩
        exact List.any_eq_true.mpr ⟨(k, u), hmem, beq_iff_eq.mpr hkw⟩
      · exact Or.inl ⟨(Prod.mk.injEq _ _ _ _ ▸ heq).1, (Prod.mk.injEq _ _ _ _ ▸ heq).2⟩
    · rintro (⟨rfl, rfl⟩ | ⟨-, hmem⟩)
      · exact Or.inr rfl
      · exact Or.inl hmem

theorem buildTrie_concat (l : List (List Char × List Char)) (p : List Char × List Char) :
    CreateTries.buildTrie (l ++ [p]) = addWord (CreateTries.buildTrie l) p.1 (p.2, p.1) := by
  unfold CreateTries.buildTrie
  rw [List.foldl_append]
  rfl

theorem lastEntryWithKey_concat (l : List (List Char × List Char))
    (p : List Char × List Char) (k : List Char) :
    CreateTries.lastEntryWithKey (l ++ [p]) k =
      if p.1 = k then some p else CreateTries.lastEntryWithKey l k := by
  unfold CreateTries.lastEntryWithKey
  rw [List.filter_append]
  by_cases hpk : p.1 = k
  · rw [if_pos hpk]
    have : List.filter (fun q => q.1 == k) [p] = [p] := by
      simp [List.filter, beq_iff_eq.mpr hpk]
    rw [this, List.getLast?_concat]
  · rw [if_neg hpk]
    have hbeq : (p.1 == k) = false := beq_eq_false_iff_ne.mpr hpk
    have : List.filter (fun q => q.1 == k) [p] = [] := by
      simp [List.filter, hbeq]
    rw [this, List.append_nil]

/-- The patterns of a compiled chunk are exactly the last-write-wins
survivors of the chunk's entries, with payload (raw name, key). -/
theorem mem_buildTrie {w : List (List Char × List Char)} {k : List Char}
    {v : List Char × List Char} :
    (k, v) ∈ CreateTries.buildTrie w ↔
      ∃ o, v = (o, k) ∧ CreateTries.lastEntryWithKey w k = some (k, o) := by
  induction w using List.reverseRecOn with
  | nil => simp [CreateTries.buildTrie, CreateTries.lastEntryWithKey]
  | append_singleton l p ih =>
    rw [buildTrie_concat, mem_addWord, lastEntryWithKey_concat, ih]
    obtain ⟨p1, p2⟩ := p
    by_cases hpk : p1 = k
    · subst hpk
      simp [Prod.ext_iff, eq_comm]
    · rw [if_neg hpk]
      simp only [Prod.ext_iff]
      constructor
      · rintro (⟨hk, -⟩ | ⟨-, h⟩)
        · exact absurd hk.symm hpk
        · exact h
      · intro h
        exact Or.inr ⟨fun hk => hpk hk.symm, h⟩

/-! ### Claim C6 -/

theorem processed_names_length (names : List PyVal) :
    (CreateTries.processed_names names).length =
      (names.filter (fun x => !(CreateTries.clean_name x).isEmpty)).length := by
  unfold CreateTries.processed_names
  rw [(List.perm_insertionSort _ _).length_eq, List.filter_map, List.length_map]
  rfl

/-- C6, counterexample: with raw names "x" and "x," (both canonical key "x")
and chunk size 1 the duplicate key group straddles a chunk boundary; both raw
names survive as patterns of different chunks, so the union of the chunk
patterns is strictly larger than the global last-write-wins set, which keeps
only the later entry "x,". -/
theorem claim_C6_counterexample :
    ("x".toList, "x".toList) ∈ CreateTries.unionPatterns
        (CreateTries.create_and_pickle_tries
          [PyVal.str "x".toList, PyVal.str "x,".toList] 1) ∧
      CreateTries.lastEntryWithKey
          (CreateTries.processed_names [PyVal.str "x".toList, PyVal.str "x,".toList])
          "x".toList ≠ some ("x".toList, "x".toList) := by decide

/-- C6 (amended): for chunk size C > 0 the builder emits
ceil(N / C) chunks where N counts the entries with non-empty canonical key
before deduplication, and an empty (filtered) dictionary yields zero chunks;
the union of all chunk patterns equals the union over the C-sized windows of
the sorted entry sequence of the last-write-wins deduplication of each
window (deduplication is per chunk, not global: a key group that straddles a
chunk boundary keeps one payload per chunk). -/
theorem claim_C6 (names : List PyVal) (C : Nat) (hC : 0 < C) :
    ((CreateTries.create_and_pickle_tries names C).length =
        ((names.filter (fun x => !(CreateTries.clean_name x).isEmpty)).length + C - 1) / C) ∧
      (∀ k o : List Char,
        (k, o) ∈ CreateTries.unionPatterns (CreateTries.create_and_pickle_tries names C) ↔
          ∃ i < ((names.filter (fun x => !(CreateTries.clean_name x).isEmpty)).length + C - 1) / C,
            CreateTries.lastEntryWithKey
              (CreateTries.nthChunk (CreateTries.processed_names names) C i) k = some (k, o)) ∧
      ((names.filter (fun x => !(CreateTries.clean_name x).isEmpty)).length = 0 →
        CreateTries.create_and_pickle_tries names C = []) := by
  have hlen : (CreateTries.create_and_pickle_tries names C).length =
      CreateTries.chunkCount (CreateTries.processed_names names).length C := by
    unfold CreateTries.create_and_pickle_tries
    rw [List.length_map, List.length_range]
  have hcount : CreateTries.chunkCount (CreateTries.processed_names names).length C =
      ((names.filter (fun x => !(CreateTries.clean_name x).isEmpty)).length + C - 1) / C := by
    unfold CreateTries.chunkCount
    rw [processed_names_length]
  refine ⟨hlen.trans hcount, fun k o => ?_, fun hzero => ?_⟩
  · unfold CreateTries.unionPatterns
    rw [List.mem_flatMap]
    constructor
    · rintro ⟨f, hf, hko⟩
      obtain ⟨i, hi, rfl⟩ := List.mem_map.mp hf
      obtain ⟨p, hp, hpe⟩ := List.mem_map.mp hko
      obtain ⟨p1, p2⟩ := p
      obtain ⟨o', ho', hlast⟩ := mem_buildTrie.mp hp
      subst ho'
      rw [Prod.mk.injEq] at hpe
      refine ⟨i, ?_, ?_⟩
      · rw [← hcount]
        exact List.mem_range.mp hi
      · rw [← hpe.1, ← hpe.2]
        exact hlast
    · rintro ⟨i, hi, hlast⟩
      refine ⟨(CreateTries.chunkFileName (i + 1),
        (CreateTries.buildTrie (CreateTries.nthChunk (CreateTries.processed_names names) C i),
         CreateTries.chunkRange (CreateTries.nthChunk (CreateTries.processed_names names) C i))),
        List.mem_map.mpr ⟨i, List.mem_range.mpr (hcount ▸ hi), rfl⟩, ?_⟩
      exact List.mem_map.mpr ⟨(k, (o, k)), mem_buildTrie.mpr ⟨o, rfl, hlast⟩, rfl⟩
  · unfold CreateTries.create_and_pickle_tries
    have hplen : (CreateTries.processed_names names).length = 0 := by
      rw [processed_names_length, hzero]
    rw [hplen]
    have : CreateTries.chunkCount 0 C = 0 := by
      unfold CreateTries.chunkCount
      exact Nat.div_eq_of_lt (by omega)
    rw [this]
    rfl

/-- C6 witness: two distinct names with chunk size 1 produce two chunks. -/
theorem claim_C6_witness :
    (CreateTries.create_and_pickle_tries [PyVal.str "ab".toList, PyVal.str "cd".toList] 1).length =
      (([PyVal.str "ab".toList, PyVal.str "cd".toList].filter
          (fun x => !(CreateTries.clean_name x).isEmpty)).length + 1 - 1) / 1 :=
  (claim_C6 [PyVal.str "ab".toList, PyVal.str "cd".toList] 1 (by decide)).1

end NER

namespace NER

/-! ### Claim C8 -/

theorem pyEndsWith_append (a b : List Char) : SearchCompanies.pyEndsWith (a ++ b) b = true := by
  unfold SearchCompanies.pyEndsWith
  have hlen : (a ++ b).length - b.length = a.length := by
    rw [List.length_append]
    omega
  rw [hlen, List.drop_left]
  exact beq_self_eq_true b

theorem chunkFileName_endsWith (k : Nat) :
    SearchCompanies.pyEndsWith (CreateTries.chunkFileName k) SearchCompanies.pklSuffix = true := by
  unfold CreateTries.chunkFileName SearchCompanies.pklSuffix
  exact pyEndsWith_append _ _

/-- Single-digit chunk ordinals sort lexicographically in numeric order. -/
theorem chunkFileName_le_of_lt_ten :
    ∀ i < 10, ∀ j < 10, i ≤ j → CreateTries.chunkFileName i ≤ CreateTries.chunkFileName j := by
  decide

/-- C8, counterexample: with ten chunks the file names sort as
trie_chunk_1, trie_chunk_10, trie_chunk_2, ..., so the registry order
differs from the build ordinal order. -/
theorem claim_C8_counterexample :
    SearchCompanies.load_tries (some (CreateTries.create_and_pickle_tries
        (["a", "b", "c", "d", "e", "f", "g", "h", "i", "j"].map
          (fun s => PyVal.str s.toList)) 1)) ≠
      (CreateTries.create_and_pickle_tries
        (["a", "b", "c", "d", "e", "f", "g", "h", "i", "j"].map
          (fun s => PyVal.str s.toList)) 1).map Prod.snd := by decide

/-- C8 (amended): the store loads chunk files in the lexicographic order of
their file names (`sorted(os.listdir(...))`); this equals the build ordinal
order whenever at most 9 chunks were produced, but not for every chunk count
(from 10 chunks on, "trie_chunk_10.pkl" sorts before "trie_chunk_2.pkl"). -/
theorem claim_C8 (names : List PyVal) (C : Nat)
    (h : (CreateTries.create_and_pickle_tries names C).length ≤ 9) :
    SearchCompanies.load_tries (some (CreateTries.create_and_pickle_tries names C)) =
      (CreateTries.create_and_pickle_tries names C).map Prod.snd := by
  have hn : CreateTries.chunkCount (CreateTries.processed_names names).length C ≤ 9 := by
    have : (CreateTries.create_and_pickle_tries names C).length =
        CreateTries.chunkCount (CreateTries.processed_names names).length C := by
      unfold CreateTries.create_and_pickle_tries
      rw [List.length_map, List.length_range]
    omega
  have hsorted : List.Sorted (fun f g : List Char × TrieData => f.1 ≤ g.1)
      (CreateTries.create_and_pickle_tries names C) := by
    unfold CreateTries.create_and_pickle_tries
    rw [List.Sorted, List.pairwise_map]
    refine (List.pairwise_lt_range _).imp_of_mem (fun {a b} ha hb hab => ?_)
    exact chunkFileName_le_of_lt_ten (a + 1) (by have := List.mem_range.mp ha; omega)
      (b + 1) (by have := List.mem_range.mp hb; omega) (by omega)
  have hfilter : (CreateTries.create_and_pickle_tries names C).filter
      (fun f => SearchCompanies.pyEndsWith f.1 SearchCompanies.pklSuffix) =
      CreateTries.create_and_pickle_tries names C := by
    refine List.filter_eq_self.mpr (fun f hf => ?_)
    obtain ⟨i, -, rfl⟩ := List.mem_map.mp hf
    exact chunkFileName_endsWith (i + 1)
  simp only [SearchCompanies.load_tries]
  rw [List.Sorted.insertionSort_eq hsorted, hfilter]

/-- C8 witness: a single-chunk build loads back in build order. -/
theorem claim_C8_witness :
    SearchCompanies.load_tries (some (CreateTries.create_and_pickle_tries
        [PyVal.str "ab".toList] 1)) =
      (CreateTries.create_and_pickle_tries [PyVal.str "ab".toList] 1).map Prod.snd :=
  claim_C8 [PyVal.str "ab".toList] 1 (by decide)

end NER

namespace NER

/-! ### Strip-decomposition lemmas (towards claim C2) -/

theorem head_dropWhile_false (p : Char → Bool) (l : List Char) :
    ∀ c, (l.dropWhile p).head? = some c → p c = false := by
  induction l with
  | nil => intro c hc; simp [List.dropWhile] at hc
  | cons a t ih =>
    intro c hc
    rw [List.dropWhile_cons] at hc
    by_cases hpa : p a = true
    · rw [if_pos hpa] at hc
      exact ih c hc
    · rw [if_neg hpa] at hc
      rw [List.head?_cons, Option.some_inj] at hc
      rw [← hc]
      exact Bool.eq_false_iff.mpr hpa

/-- Dropping leading whitespace stops at a middle block whose first
character is not whitespace. -/
theorem dropWhile_append_middle (p : Char → Bool) (a m b : List Char)
    (hm : ∀ c, m.head? = some c → p c = false) (hne : m ≠ []) :
    (a ++ (m ++ b)).dropWhile p = a.dropWhile p ++ (m ++ b) := by
  obtain ⟨c, m', rfl⟩ := List.exists_cons_of_ne_nil hne
  have hmids : ((c :: m') ++ b).dropWhile p = (c :: m') ++ b := by
    rw [List.cons_append, List.dropWhile_cons, if_neg (by rw [hm c rfl]; simp)]
  rw [List.dropWhile_append]
  by_cases he : (a.dropWhile p).isEmpty
  · rw [if_pos he, List.isEmpty_iff.mp he, hmids, List.nil_append]
  · rw [if_neg he]

/-- Every string splits as leading whitespace, its strip, and trailing
whitespace. -/
theorem pyStrip_decomp (s : List Char) :
    ∃ u v, s = u ++ pyStrip s ++ v ∧ (∀ c ∈ u, pyIsSpace c = true) ∧
      (∀ c ∈ v, pyIsSpace c = true) := by
  refine ⟨s.takeWhile pyIsSpace,
    ((s.dropWhile pyIsSpace).reverse.takeWhile pyIsSpace).reverse, ?_, ?_, ?_⟩
  · conv_lhs => rw [← List.takeWhile_append_dropWhile pyIsSpace s]
    rw [List.append_assoc]
    congr 1
    conv_lhs => rw [← List.reverse_reverse (s.dropWhile pyIsSpace),
      ← List.takeWhile_append_dropWhile pyIsSpace (s.dropWhile pyIsSpace).reverse,
      List.reverse_append]
    rfl
  · exact fun c hc => List.mem_takeWhile_imp hc
  · intro c hc
    rw [List.mem_reverse] at hc
    exact List.mem_takeWhile_imp hc

theorem pyStrip_getLast (s : List Char) :
    ∀ c, (pyStrip s).getLast? = some c → pyIsSpace c = false := by
  intro c hc
  unfold pyStrip at hc
  rw [List.getLast?_reverse] at hc
  exact head_dropWhile_false pyIsSpace _ c hc

theorem pyStrip_head (s : List Char) :
    ∀ c, (pyStrip s).head? = some c → pyIsSpace c = false := by
  intro c hc
  unfold pyStrip at hc
  rw [List.head?_reverse] at hc
  set z := (s.dropWhile pyIsSpace).reverse.dropWhile pyIsSpace with hz
  obtain ⟨t, ht⟩ := List.dropWhile_suffix (l := (s.dropWhile pyIsSpace).reverse) pyIsSpace
  have hzne : z ≠ [] := by
    intro hznil
    rw [hznil, List.getLast?_nil] at hc
    exact Option.noConfusion hc
  have : (s.dropWhile pyIsSpace).reverse.getLast? = some c := by
    rw [← ht, List.getLast?_append, hc]
    rfl
  rw [List.getLast?_reverse] at this
  exact head_dropWhile_false pyIsSpace s c this

/-- The strip of a text of the form `A ++ m ++ B`, where `m` is already
stripped and non-empty, strips `A` on the left and `B` on the right. -/
theorem pyStrip_append_middle (A m B : List Char) (hne : m ≠ [])
    (hh : ∀ c, m.head? = some c → pyIsSpace c = false)
    (hl : ∀ c, m.getLast? = some c → pyIsSpace c = false) :
    pyStrip (A ++ m ++ B) = A.dropWhile pyIsSpace ++ m ++
      (B.reverse.dropWhile pyIsSpace).reverse := by
  unfold pyStrip
  rw [List.append_assoc A m B, dropWhile_append_middle pyIsSpace A m B hh hne]
  have hrev : (A.dropWhile pyIsSpace ++ (m ++ B)).reverse =
      B.reverse ++ (m.reverse ++ (A.dropWhile pyIsSpace).reverse) := by
    rw [List.reverse_append, List.reverse_append]
    rw [List.append_assoc]
  rw [hrev, dropWhile_append_middle pyIsSpace B.reverse m.reverse
    (A.dropWhile pyIsSpace).reverse
    (fun c hc => hl c (by rw [← List.head?_reverse]; exact hc))
    (fun hmr => hne (by rw [← List.reverse_reverse m, hmr]; rfl))]
  rw [List.reverse_append, List.reverse_append, List.reverse_reverse,
    List.reverse_reverse, List.append_assoc]

end NER

namespace NER

/-- Cleaning a query consisting of a name surrounded by non-alphanumeric
separators yields the cleaned name surrounded by non-alphanumeric
residue. -/
theorem clean_name_q_decomp (s1 s2 raw : List Char)
    (h1 : ∀ c ∈ s1, pyIsAlnum c = false) (h2 : ∀ c ∈ s2, pyIsAlnum c = false)
    (hraw : pyStrip raw ≠ []) :
    ∃ W1 W2,
      SearchCompanies.clean_name (PyVal.str (s1 ++ raw ++ s2)) =
        W1 ++ SearchCompanies.clean_name (PyVal.str raw) ++ W2 ∧
      (∀ c ∈ W1, pyIsAlnum c = false) ∧ (∀ c ∈ W2, pyIsAlnum c = false) := by
  obtain ⟨u, v, hsplit, hu, hv⟩ := pyStrip_decomp raw
  have hstrip : pyStrip (s1 ++ raw ++ s2) = (s1 ++ u).dropWhile pyIsSpace ++ pyStrip raw ++
      ((v ++ s2).reverse.dropWhile pyIsSpace).reverse := by
    have hassoc : s1 ++ raw ++ s2 = (s1 ++ u) ++ pyStrip raw ++ (v ++ s2) := by
      conv_lhs => rw [hsplit]
      simp [List.append_assoc]
    rw [hassoc]
    exact pyStrip_append_middle (s1 ++ u) (pyStrip raw) (v ++ s2) hraw
      (pyStrip_head raw) (pyStrip_getLast raw)
  refine ⟨(((s1 ++ u).dropWhile pyIsSpace).map Char.toLower).filter
      (fun c => pyIsWord c || pyIsSpace c),
    ((((v ++ s2).reverse.dropWhile pyIsSpace).reverse).map Char.toLower).filter
      (fun c => pyIsWord c || pyIsSpace c), ?_, ?_, ?_⟩
  · simp only [SearchCompanies.clean_name]
    rw [hstrip, List.map_append, List.map_append, List.filter_append, List.filter_append]
  · intro c hc
    obtain ⟨c0, hc0, rfl⟩ := List.mem_map.mp (List.mem_of_mem_filter hc)
    rw [pyIsAlnum_toLower]
    have hc0m : c0 ∈ s1 ++ u := (List.dropWhile_sublist pyIsSpace).mem hc0
    rcases List.mem_append.mp hc0m with hs | hus
    · exact h1 c0 hs
    · exact pyIsSpace_not_alnum (hu c0 hus)
  · intro c hc
    obtain ⟨c0, hc0, rfl⟩ := List.mem_map.mp (List.mem_of_mem_filter hc)
    rw [pyIsAlnum_toLower]
    rw [List.mem_reverse] at hc0
    have hc0m : c0 ∈ v ++ s2 := by
      have := (List.dropWhile_sublist pyIsSpace).mem hc0
      rw [List.mem_reverse] at this
      exact this
    rcases List.mem_append.mp hc0m with hvs | hs
    · exact pyIsSpace_not_alnum (hv c0 hvs)
    · exact h2 c0 hs

/-! ### Chunk-partition lemmas -/

theorem chunkCount_succ (n C : Nat) (hC : 0 < C) (hn : 0 < n) :
    CreateTries.chunkCount n C = CreateTries.chunkCount (n - C) C + 1 := by
  unfold CreateTries.chunkCount
  rcases le_or_lt n C with h | h
  · have h1 : (n + C - 1) / C = 1 := Nat.div_eq_of_lt_le (by omega) (by omega)
    have h2 : n - C = 0 := by omega
    have h3 : (0 + C - 1) / C = 0 := Nat.div_eq_of_lt (by omega)
    rw [h1, h2, h3]
  · have heq : n + C - 1 = (n - C + C - 1) + C := by omega
    rw [heq, Nat.add_div_right _ hC]

theorem chunks_cons {α : Type} (l : List α) (C : Nat) (hC : 0 < C) (hl : l ≠ []) :
    CreateTries.chunks l C = l.take C :: CreateTries.chunks (l.drop C) C := by
  unfold CreateTries.chunks
  rw [chunkCount_succ l.length C hC (List.length_pos.mpr hl), List.range_succ_eq_map]
  simp only [List.map_cons, List.map_map]
  congr 1
  · simp [CreateTries.nthChunk]
  · rw [List.length_drop]
    refine List.map_congr_left (fun i _ => ?_)
    simp only [Function.comp_apply, CreateTries.nthChunk]
    rw [List.drop_drop]
    congr 2
    rw [Nat.succ_mul]
    omega

theorem chunks_flatten_le {α : Type} (C : Nat) (hC : 0 < C) :
    ∀ (n : Nat) (l : List α), l.length ≤ n → (CreateTries.chunks l C).flatten = l := by
  intro n
  induction n with
  | zero =>
    intro l hl
    have hnil : l = [] := List.eq_nil_of_length_eq_zero (by omega)
    subst hnil
    unfold CreateTries.chunks
    have : CreateTries.chunkCount ([] : List α).length C = 0 := by
      unfold CreateTries.chunkCount
      exact Nat.div_eq_of_lt (by simp; omega)
    rw [this]
    rfl
  | succ n ih =>
    intro l hl
    by_cases hnil : l = []
    · subst hnil
      unfold CreateTries.chunks
      have : CreateTries.chunkCount ([] : List α).length C = 0 := by
        unfold CreateTries.chunkCount
        exact Nat.div_eq_of_lt (by simp; omega)
      rw [this]
      rfl
    · rw [chunks_cons l C hC hnil, List.flatten_cons,
        ih (l.drop C) (by rw [List.length_drop]; omega)]
      exact List.take_append_drop C l

/-- The chunk slices partition the processed entry list. -/
theorem chunks_flatten {α : Type} (l : List α) (C : Nat) (hC : 0 < C) :
    (CreateTries.chunks l C).flatten = l :=
  chunks_flatten_le C hC l.length l le_rfl

theorem flatten_eq_singleton {α : Type} :
    ∀ (L : List (List α)) (a : α) (x : List α),
      L.flatten = [a] → x ∈ L → a ∈ x → x = [a] := by
  intro L
  induction L with
  | nil =>
    intro a x h hx ha
    exact absurd hx (List.not_mem_nil x)
  | cons h t ih =>
    intro a x hfl hx ha
    rw [List.flatten_cons] at hfl
    rcases List.append_eq_cons_iff.mp hfl with ⟨hnil, hrest⟩ | ⟨h', hcons, hnil⟩
    · rcases List.mem_cons.mp hx with rfl | hxt
      · exact absurd ha (by rw [hnil]; exact List.not_mem_nil a)
      · exact ih a x hrest hxt ha
    · obtain ⟨h'nil, htnil⟩ := List.append_eq_nil.mp hnil.symm
      subst h'nil
      rcases List.mem_cons.mp hx with rfl | hxt
      · rw [hcons]
      · exfalso
        have : a ∈ t.flatten := List.mem_flatten.mpr ⟨x, hxt, ha⟩
        rw [htnil] at this
        exact List.not_mem_nil a this

end NER

namespace NER

/-- Constructing a successful match: if a loaded trie stores the pattern `k`
with payload `(o, k)`, the cleaned query is `W1 ++ k ++ W2` with
non-alphanumeric residue on both sides, and `k` is not a single-token stop
word, then `o` is returned. -/
theorem mem_find_of_pattern (tries : List TrieData) (text : PyVal) (td : TrieData)
    (k o W1 W2 : List Char)
    (htd : td ∈ tries) (hk : (k, (o, k)) ∈ td.1)
    (hcl : SearchCompanies.clean_name text = W1 ++ k ++ W2)
    (hkne : k ≠ [])
    (hW1 : ∀ c ∈ W1, pyIsAlnum c = false) (hW2 : ∀ c ∈ W2, pyIsAlnum c = false)
    (hstop : SearchCompanies.isSingleTokenStopWord k = false) :
    o ∈ SearchCompanies.find_company_names tries text := by
  have hklen : 0 < k.length := List.length_pos.mpr hkne
  have hlen : (W1 ++ k ++ W2).length = W1.length + k.length + W2.length := by
    simp [List.length_append]
    omega
  have helt : W1.length + (k.length - 1) < (W1 ++ k ++ W2).length := by
    rw [hlen]
    omega
  have hstart : W1.length + (k.length - 1) + 1 - k.length = W1.length := by omega
  have hocc : occursEndAt (W1 ++ k ++ W2) k (W1.length + (k.length - 1)) = true := by
    simp only [occursEndAt, Bool.and_eq_true, decide_eq_true_eq]
    refine ⟨⟨⟨hklen, by omega⟩, helt⟩, ?_⟩
    rw [hstart, List.append_assoc, List.drop_left, List.take_left]
    exact beq_self_eq_true k
  have hiter : (W1.length + (k.length - 1), (o, k)) ∈ trieIter td.1 (W1 ++ k ++ W2) :=
    List.mem_flatMap.mpr ⟨W1.length + (k.length - 1), List.mem_range.mpr helt,
      List.mem_map.mpr ⟨(k, (o, k)), List.mem_filter.mpr ⟨hk, hocc⟩, rfl⟩⟩
  have hpre : pyIsAlnum (if W1.length + (k.length - 1) + 1 - k.length > 0 then
      (W1 ++ k ++ W2).getD (W1.length + (k.length - 1) + 1 - k.length - 1) ' ' else ' ') = false := by
    rw [hstart]
    by_cases hW1e : W1 = []
    · subst hW1e
      rw [if_neg (by simp)]
      decide
    · have hW1pos : 0 < W1.length := List.length_pos.mpr hW1e
      rw [if_pos hW1pos]
      have hidx : W1.length - 1 < W1.length := by omega
      rw [List.getD_eq_getElem?_getD, List.append_assoc, List.getElem?_append,
        if_pos hidx, List.getElem?_eq_getElem hidx]
      exact hW1 _ (List.getElem_mem hidx)
  have hpost : pyIsAlnum (if W1.length + (k.length - 1) < (W1 ++ k ++ W2).length - 1 then
      (W1 ++ k ++ W2).getD (W1.length + (k.length - 1) + 1) ' ' else ' ') = false := by
    cases W2 with
    | nil =>
      rw [if_neg (by simp [List.length_append]; omega)]
      decide
    | cons c W2' =>
      rw [if_pos (by simp [List.length_append]; omega)]
      have hidx : ¬(W1.length + (k.length - 1) + 1 < (W1 ++ k).length) := by
        simp [List.length_append]
        omega
      have hzero : W1.length + (k.length - 1) + 1 - (W1 ++ k).length = 0 := by
        simp [List.length_append]
        omega
      rw [List.getD_eq_getElem?_getD, List.getElem?_append, if_neg hidx, hzero]
      simp only [List.getElem?_cons_zero, Option.getD_some]
      exact hW2 c (List.mem_cons_self c W2')
  have haccept : SearchCompanies.acceptOcc (W1 ++ k ++ W2) (W1.length + (k.length - 1)) k = true := by
    simp only [SearchCompanies.acceptOcc, SearchCompanies.boundaryOk, hstop, hpre, hpost]
    rfl
  refine mem_find_company_names.mpr ⟨td, htd, (W1.length + (k.length - 1), (o, k)), ?_, ?_, rfl⟩
  · rw [hcl]
    exact hiter
  · rw [hcl]
    exact haccept

/-! ### Claim C2 -/

/-- C2, counterexample: the name "The" has non-empty canonical key "the"; a
query consisting of exactly this name is cleaned to "the", matched at
perfect boundaries, and then suppressed by the stop-word filter, so the
result set does not contain "The". -/
theorem claim_C2_counterexample :
    "The".toList ∉ SearchCompanies.find_company_names
      (SearchCompanies.load_tries (some (CreateTries.create_and_pickle_tries
        [PyVal.str "The".toList] 1)))
      (PyVal.str "The".toList) := by decide

/-- C2 (amended): for chunk size C > 0, every RawName inserted during build
whose CanonicalKey is non-empty is returned for a query consisting of
exactly that name surrounded by non-alphanumeric separators or the text
boundaries, provided the build-time and query-time normalizations agree on
the name, its CanonicalKey is not a single-token stop word, and no other
build entry shares its CanonicalKey (expressed below: the name's entry is
the only one with its key in the processed sequence). -/
theorem claim_C2 (names : List PyVal) (C : Nat) (raw s1 s2 : List Char)
    (hC : 0 < C)
    (_hmem : PyVal.str raw ∈ names)
    (hkey : CreateTries.clean_name (PyVal.str raw) ≠ [])
    (hagree : SearchCompanies.clean_name (PyVal.str raw) = CreateTries.clean_name (PyVal.str raw))
    (hstop : SearchCompanies.isSingleTokenStopWord (CreateTries.clean_name (PyVal.str raw)) = false)
    (huniq : (CreateTries.processed_names names).filter
        (fun p => p.1 == CreateTries.clean_name (PyVal.str raw)) =
      [(CreateTries.clean_name (PyVal.str raw), raw)])
    (hs1 : ∀ c ∈ s1, pyIsAlnum c = false) (hs2 : ∀ c ∈ s2, pyIsAlnum c = false) :
    raw ∈ SearchCompanies.find_company_names
      (SearchCompanies.load_tries (some (CreateTries.create_and_pickle_tries names C)))
      (PyVal.str (s1 ++ raw ++ s2)) := by
  have hentry : (CreateTries.clean_name (PyVal.str raw), raw) ∈ CreateTries.processed_names names :=
    List.mem_of_mem_filter (p := fun p => p.1 == CreateTries.clean_name (PyVal.str raw))
      (by rw [huniq]; exact List.mem_singleton_self _)
  have hflat : (CreateTries.chunks (CreateTries.processed_names names) C).flatten =
      CreateTries.processed_names names :=
    chunks_flatten (CreateTries.processed_names names) C hC
  obtain ⟨w, hw, hentw⟩ := List.mem_flatten.mp (by rw [hflat]; exact hentry)
  obtain ⟨i, hi, hweq⟩ := List.mem_map.mp hw
  have hfw : w.filter (fun p => p.1 == CreateTries.clean_name (PyVal.str raw)) =
      [(CreateTries.clean_name (PyVal.str raw), raw)] := by
    refine flatten_eq_singleton
      ((CreateTries.chunks (CreateTries.processed_names names) C).map
        (List.filter (fun p => p.1 == CreateTries.clean_name (PyVal.str raw))))
      (CreateTries.clean_name (PyVal.str raw), raw) _ ?_ ?_ ?_
    · rw [← List.filter_flatten, hflat]
      exact huniq
    · exact List.mem_map.mpr ⟨w, hw, rfl⟩
    · exact List.mem_filter.mpr ⟨hentw, beq_self_eq_true _⟩
  have hlast : CreateTries.lastEntryWithKey w (CreateTries.clean_name (PyVal.str raw)) =
      some (CreateTries.clean_name (PyVal.str raw), raw) := by
    unfold CreateTries.lastEntryWithKey
    rw [hfw]
    rfl
  have htrie : (CreateTries.clean_name (PyVal.str raw),
      (raw, CreateTries.clean_name (PyVal.str raw))) ∈ CreateTries.buildTrie w :=
    mem_buildTrie.mpr ⟨raw, rfl, hlast⟩
  have hfile : (CreateTries.chunkFileName (i + 1),
      (CreateTries.buildTrie w, CreateTries.chunkRange w)) ∈
      CreateTries.create_and_pickle_tries names C := by
    unfold CreateTries.create_and_pickle_tries
    refine List.mem_map.mpr ⟨i, hi, ?_⟩
    rw [hweq]
  have hreg : (CreateTries.buildTrie w, CreateTries.chunkRange w) ∈
      SearchCompanies.load_tries (some (CreateTries.create_and_pickle_tries names C)) :=
    mem_load_tries.mpr ⟨CreateTries.chunkFileName (i + 1), hfile, chunkFileName_endsWith (i + 1)⟩
  have hstripne : pyStrip raw ≠ [] := by
    intro hnil
    apply hkey
    simp only [CreateTries.clean_name]
    rw [hnil]
    rfl
  obtain ⟨W1, W2, hdecomp, hW1, hW2⟩ := clean_name_q_decomp s1 s2 raw hs1 hs2 hstripne
  rw [hagree] at hdecomp
  exact mem_find_of_pattern _ _ _ _ raw W1 W2 hreg htrie hdecomp hkey hW1 hW2 hstop

/-- C2 witness: the dictionary ["google"] with chunk size 1, queried with
" google " (space separators), returns "google". -/
theorem claim_C2_witness :
    "google".toList ∈ SearchCompanies.find_company_names
      (SearchCompanies.load_tries (some (CreateTries.create_and_pickle_tries
        [PyVal.str "google".toList] 1)))
      (PyVal.str (" ".toList ++ "google".toList ++ " ".toList)) :=
  claim_C2 [PyVal.str "google".toList] 1 "google".toList " ".toList " ".toList
    (by decide) (by decide) (by decide) (by decide) (by decide) (by decide)
    (by decide) (by decide)

end NER
